import Mathlib

/-!
Shallow embedding of the pure helper functions of `src/cli/task.rs` from the
ticktick-cli repository, together with proofs settling the frozen claims
about them.

Modelling conventions:

* Rust `&str` / `String` values are modelled as `List Char` (`Str`).  The
  ASCII character functions used by the code (`is_ascii_alphanumeric`,
  `to_ascii_lowercase`, `eq_ignore_ascii_case`) are modelled exactly.  The
  Unicode functions `char::is_alphanumeric` and `char::to_lowercase` used
  by `normalize_list_name` are modelled exactly on the ASCII range plus the
  non-ASCII characters listed in `uniAlnumChars` / `uniLowerPairs` (the
  dotted capital I U+0130, whose lowercasing expands to `i` followed by the
  combining dot above U+0307, and the E-acute pair); `char::is_whitespace`
  is modelled by the ASCII whitespace set (every listed non-ASCII character
  is non-whitespace).  Theorems quantify only over inputs on which this
  character model is faithful.
* `chrono::NaiveDate` is modelled as a year/month/day record over
  mathematical integers (proleptic Gregorian calendar, chrono's finite year
  range is not modelled).  `chrono`'s `Ord` on valid dates is chronological,
  which coincides with lexicographic order on (year, month, day).
* Day arithmetic (`Duration::days`) is modelled by iterating calendar
  successor/predecessor; weekdays are derived from the Rata Die day number
  (Rata Die day 1 = 0001-01-01, a Monday), matching
  `Weekday::num_days_from_monday`.
* Fallible Rust code returning `Option` is modelled with `Option`.
-/

namespace TickTick

/-! ## Characters and strings (ASCII model of Rust `str`) -/

abbrev Str := List Char

/-- Whitespace characters recognised by the model of `char::is_whitespace`
(restricted to the ASCII range). -/
def isWs (c : Char) : Bool :=
  c == ' ' || c == '\t' || c == '\n' || c == '\r' || c == '\x0b' || c == '\x0c'

/-- The 26 ASCII upper/lower case letter pairs. -/
def lowerPairs : List (Char × Char) :=
  [('A', 'a'), ('B', 'b'), ('C', 'c'), ('D', 'd'), ('E', 'e'), ('F', 'f'),
   ('G', 'g'), ('H', 'h'), ('I', 'i'), ('J', 'j'), ('K', 'k'), ('L', 'l'),
   ('M', 'm'), ('N', 'n'), ('O', 'o'), ('P', 'p'), ('Q', 'q'), ('R', 'r'),
   ('S', 's'), ('T', 't'), ('U', 'u'), ('V', 'v'), ('W', 'w'), ('X', 'x'),
   ('Y', 'y'), ('Z', 'z')]

/-- Model of Rust `char::to_ascii_lowercase`: maps `A`-`Z` to `a`-`z` and
leaves every other character unchanged. -/
def toLowerCh (c : Char) : Char :=
  match lowerPairs.find? (fun p => p.1 == c) with
  | some p => p.2
  | none => c

/-- Model of Rust `str::eq_ignore_ascii_case`. -/
def eqIgnoreCase (a b : Str) : Bool :=
  decide (a.map toLowerCh = b.map toLowerCh)

/-- Helper for `splitWhitespace`: `cur` is the reversed current word. -/
def swRun (cur : Str) : Str → List Str
  | [] => if cur = [] then [] else [cur.reverse]
  | c :: rest =>
    if isWs c then
      if cur = [] then swRun [] rest else cur.reverse :: swRun [] rest
    else
      swRun (c :: cur) rest

/-- Model of Rust `str::split_whitespace`: splits at runs of whitespace,
discarding empty substrings. -/
def splitWhitespace (l : Str) : List Str :=
  swRun [] l

/-- Model of Rust `str::trim`. -/
def trim (l : Str) : Str :=
  ((l.dropWhile isWs).reverse.dropWhile isWs).reverse

/-- Model of `Vec::join(" ")` on a list of tokens. -/
def joinSpace : List Str → Str
  | [] => []
  | [w] => w
  | w :: ws => w ++ ' ' :: joinSpace ws

/-- Model of Rust `str::split(sep)` for a character separator: keeps empty
parts, so the result is always nonempty. -/
def splitSep (sep : Char) : Str → List Str
  | [] => [[]]
  | c :: rest =>
    match splitSep sep rest with
    | [] => [[]]
    | h :: t => if c = sep then [] :: h :: t else (c :: h) :: t

/-- Model of Rust `str::strip_prefix(ch)` for a character pattern. -/
def stripLeadChar (ch : Char) : Str → Option Str
  | [] => none
  | c :: rest => if c = ch then some rest else none

/-- Model of Rust `str::strip_suffix(s)` for a string pattern. -/
def stripTrail (pat : Str) (l : Str) : Option Str :=
  if pat.length ≤ l.length ∧ l.drop (l.length - pat.length) = pat then
    some (l.take (l.length - pat.length))
  else none

/-- Numeric value of a digit string (most significant digit first). -/
def digitsToNat (l : Str) : Nat :=
  l.foldl (fun acc c => acc * 10 + (c.toNat - '0'.toNat)) 0

/-- Model of Rust `str::parse::<u32>`: optional `+` sign, then a nonempty
run of ASCII digits, rejecting values above `u32::MAX`. -/
def parseU32 (l : Str) : Option Nat :=
  let digits := match l with
    | '+' :: rest => rest
    | other => other
  if digits ≠ [] ∧ digits.all Char.isDigit then
    let v := digitsToNat digits
    if v ≤ 4294967295 then some v else none
  else none

/-- Model of Rust `str::parse::<i32>`: optional sign, then a nonempty run of
ASCII digits, rejecting values outside the `i32` range. -/
def parseI32 (l : Str) : Option Int :=
  let (neg, digits) := match l with
    | '+' :: rest => (false, rest)
    | '-' :: rest => (true, rest)
    | other => (false, other)
  if digits ≠ [] ∧ digits.all Char.isDigit then
    let v : Int := if neg then -(digitsToNat digits : Int) else (digitsToNat digits : Int)
    if -2147483648 ≤ v ∧ v ≤ 2147483647 then some v else none
  else none

/-! ## Dates (model of `chrono::NaiveDate`, proleptic Gregorian calendar) -/

structure NaiveDate where
  year : Int
  month : Nat
  day : Nat
deriving DecidableEq

/-- Proleptic Gregorian leap-year predicate, as used by `chrono`. -/
def isLeapYear (y : Int) : Bool :=
  y % 4 = 0 && (y % 100 ≠ 0 || y % 400 = 0)

/-- Number of days in a month (0 for an invalid month index). -/
def daysInMonth (y : Int) (m : Nat) : Nat :=
  match m with
  | 1 => 31
  | 2 => if isLeapYear y then 29 else 28
  | 3 => 31
  | 4 => 30
  | 5 => 31
  | 6 => 30
  | 7 => 31
  | 8 => 31
  | 9 => 30
  | 10 => 31
  | 11 => 30
  | 12 => 31
  | _ => 0

/-- Model of `chrono::NaiveDate::from_ymd_opt` (chrono's finite year range
is not modelled). -/
def from_ymd_opt (y : Int) (m d : Nat) : Option NaiveDate :=
  if 1 ≤ m ∧ m ≤ 12 ∧ 1 ≤ d ∧ d ≤ daysInMonth y m then
    some ⟨y, m, d⟩
  else none

/-- A `NaiveDate` record denotes a real calendar date. -/
def NaiveDate.isValid (dt : NaiveDate) : Bool :=
  decide (1 ≤ dt.month ∧ dt.month ≤ 12 ∧ 1 ≤ dt.day ∧ dt.day ≤ daysInMonth dt.year dt.month)

/-- Chronological order on dates: on valid dates `chrono`'s `Ord` is exactly
lexicographic order on (year, month, day). -/
def NaiveDate.le (a b : NaiveDate) : Prop :=
  a.year < b.year ∨
    (a.year = b.year ∧ (a.month < b.month ∨ (a.month = b.month ∧ a.day ≤ b.day)))

instance (a b : NaiveDate) : Decidable (NaiveDate.le a b) := by
  unfold NaiveDate.le
  infer_instance

/-- Cumulative day count before month `m` of year `y`. -/
def daysBeforeMonth (y : Int) (m : Nat) : Nat :=
  (match m with
   | 1 => 0
   | 2 => 31
   | 3 => 59
   | 4 => 90
   | 5 => 120
   | 6 => 151
   | 7 => 181
   | 8 => 212
   | 9 => 243
   | 10 => 273
   | 11 => 304
   | 12 => 334
   | _ => 0) + (if 2 < m ∧ isLeapYear y then 1 else 0)

/-- Rata Die day number of a date: day 1 is 0001-01-01 (a Monday). -/
def rd (dt : NaiveDate) : Int :=
  365 * (dt.year - 1) + (dt.year - 1) / 4 - (dt.year - 1) / 100
    + (dt.year - 1) / 400 + (daysBeforeMonth dt.year dt.month : Int) + (dt.day : Int)

/-- Model of `chrono::Datelike::weekday().num_days_from_monday()`:
0 for Monday through 6 for Sunday. -/
def weekdayNumFromMonday (dt : NaiveDate) : Nat :=
  ((rd dt - 1) % 7).toNat

/-- Calendar successor of a date. -/
def nextDay (dt : NaiveDate) : NaiveDate :=
  if dt.day < daysInMonth dt.year dt.month then ⟨dt.year, dt.month, dt.day + 1⟩
  else if dt.month < 12 then ⟨dt.year, dt.month + 1, 1⟩
  else ⟨dt.year + 1, 1, 1⟩

/-- Calendar predecessor of a date. -/
def prevDay (dt : NaiveDate) : NaiveDate :=
  if 1 < dt.day then ⟨dt.year, dt.month, dt.day - 1⟩
  else if 1 < dt.month then ⟨dt.year, dt.month - 1, daysInMonth dt.year (dt.month - 1)⟩
  else ⟨dt.year - 1, 12, 31⟩

def nextDayIter : Nat → NaiveDate → NaiveDate
  | 0, dt => dt
  | k + 1, dt => nextDayIter k (nextDay dt)

def prevDayIter : Nat → NaiveDate → NaiveDate
  | 0, dt => dt
  | k + 1, dt => prevDayIter k (prevDay dt)

/-- Model of `date + chrono::Duration::days(n)` (and of subtraction, for
negative `n`). -/
def addDays (dt : NaiveDate) (n : Int) : NaiveDate :=
  if 0 ≤ n then nextDayIter n.toNat dt else prevDayIter (-n).toNat dt

inductive Weekday where
  | mon | tue | wed | thu | fri | sat | sun
deriving DecidableEq

/-- Model of `chrono::Weekday::num_days_from_monday`. -/
def Weekday.numDaysFromMonday : Weekday → Nat
  | .mon => 0
  | .tue => 1
  | .wed => 2
  | .thu => 3
  | .fri => 4
  | .sat => 5
  | .sun => 6

/-- Model of `next_or_same_weekday` from `src/cli/task.rs`.  The source
computes `(target_idx - today_idx + 7) % 7` with Rust `%` (truncated
remainder); the operand is nonnegative, so Euclidean remainder agrees. -/
def next_or_same_weekday (today : NaiveDate) (target : Weekday) : NaiveDate :=
  addDays today
    (((target.numDaysFromMonday : Int) - (weekdayNumFromMonday today : Int) + 7) % 7)

/-- Model of `start_of_next_week` from `src/cli/task.rs`. -/
def start_of_next_week (today : NaiveDate) : NaiveDate :=
  addDays (addDays today (-(weekdayNumFromMonday today : Int))) 7

/-! ## Date-token parsers from `src/cli/task.rs` -/

/-- Characters that survive at the edges of a date token: the source trims
characters that are neither ASCII alphanumeric nor `/` nor `-`. -/
def keepDT (c : Char) : Bool :=
  c.isAlphanum || c == '/' || c == '-'

/-- Model of `normalize_date_token`: trims non-(alphanumeric, `/`, `-`)
characters from both ends, then lower-cases. -/
def normalize_date_token (t : Str) : Str :=
  (((t.dropWhile fun c => !keepDT c).reverse.dropWhile fun c => !keepDT c).reverse).map
    toLowerCh

/-- Model of `infer_year_for_month_day`. -/
def infer_year_for_month_day (month day : Nat) (today : NaiveDate) : Option NaiveDate :=
  match from_ymd_opt today.year month day with
  | none => none
  | some thisYear =>
    if NaiveDate.le today thisYear then some thisYear
    else from_ymd_opt (today.year + 1) month day

/-- Model of `parse_year_token`.  The source first parses the token as an
`i32` and then inspects the token's byte length (which equals its character
length for any token the parse accepts). -/
def parse_year_token (t : Str) : Option Int :=
  match parseI32 t with
  | none => none
  | some year =>
    match t.length with
    | 2 => some (2000 + year)
    | 4 => some year
    | _ => none

/-- Model of `parse_day_token`: strips one ordinal suffix among `st`, `nd`,
`rd`, `th`, then parses a day in `1..=31`. -/
def parse_day_token (t : Str) : Option Nat :=
  let dayText :=
    match stripTrail ['s', 't'] t with
    | some r => r
    | none =>
      match stripTrail ['n', 'd'] t with
      | some r => r
      | none =>
        match stripTrail ['r', 'd'] t with
        | some r => r
        | none =>
          match stripTrail ['t', 'h'] t with
          | some r => r
          | none => t
  match parseU32 dayText with
  | none => none
  | some day => if 1 ≤ day ∧ day ≤ 31 then some day else none

/-- Model of `parse_month_token`. -/
def parse_month_token (t : Str) : Option Nat :=
  if t = "jan".toList ∨ t = "january".toList then some 1
  else if t = "feb".toList ∨ t = "february".toList then some 2
  else if t = "mar".toList ∨ t = "march".toList then some 3
  else if t = "apr".toList ∨ t = "april".toList then some 4
  else if t = "may".toList then some 5
  else if t = "jun".toList ∨ t = "june".toList then some 6
  else if t = "jul".toList ∨ t = "july".toList then some 7
  else if t = "aug".toList ∨ t = "august".toList then some 8
  else if t = "sep".toList ∨ t = "sept".toList ∨ t = "september".toList then some 9
  else if t = "oct".toList ∨ t = "october".toList then some 10
  else if t = "nov".toList ∨ t = "november".toList then some 11
  else if t = "dec".toList ∨ t = "december".toList then some 12
  else none

/-- Model of `parse_weekday_token`. -/
def parse_weekday_token (t : Str) : Option Weekday :=
  if t = "mon".toList ∨ t = "monday".toList then some .mon
  else if t = "tue".toList ∨ t = "tues".toList ∨ t = "tuesday".toList then some .tue
  else if t = "wed".toList ∨ t = "wednesday".toList then some .wed
  else if t = "thu".toList ∨ t = "thurs".toList ∨ t = "thursday".toList then some .thu
  else if t = "fri".toList ∨ t = "friday".toList then some .fri
  else if t = "sat".toList ∨ t = "saturday".toList then some .sat
  else if t = "sun".toList ∨ t = "sunday".toList then some .sun
  else none

/-- Model of `NaiveDate::parse_from_str(token, "%Y-%m-%d")`: an optional
leading minus sign, a nonempty run of digits for the year, then `-`, one or
two digits for the month, `-`, and one or two digits for the day, consuming
the whole token.  (chrono additionally bounds the year's digit count and
range; no claim exercises that corner.) -/
def parseIsoYmd (t : Str) : Option NaiveDate :=
  let (neg, rest) :=
    match t with
    | '-' :: r => (true, r)
    | r => (false, r)
  match splitSep '-' rest with
  | [ys, ms, ds] =>
    if ys ≠ [] ∧ ys.all Char.isDigit ∧
        ms ≠ [] ∧ ms.length ≤ 2 ∧ ms.all Char.isDigit ∧
        ds ≠ [] ∧ ds.length ≤ 2 ∧ ds.all Char.isDigit then
      let y : Int := if neg then -(digitsToNat ys : Int) else (digitsToNat ys : Int)
      from_ymd_opt y (digitsToNat ms) (digitsToNat ds)
    else none
  | _ => none

/-- Model of `parse_numeric_date_token`. -/
def parse_numeric_date_token (t : Str) (today : NaiveDate) : Option NaiveDate :=
  match parseIsoYmd t with
  | some date => some date
  | none =>
    let sep : Option Char :=
      if t.contains '/' then some '/'
      else if t.count '-' = 2 then some '-'
      else none
    match sep with
    | none => none
    | some sep =>
      match splitSep sep t with
      | [p0, p1] =>
        match parseU32 p0 with
        | none => none
        | some month =>
          match parseU32 p1 with
          | none => none
          | some day => infer_year_for_month_day month day today
      | [p0, p1, p2] =>
        match parseU32 p0 with
        | none => none
        | some month =>
          match parseU32 p1 with
          | none => none
          | some day =>
            match parse_year_token p2 with
            | none => none
            | some year => from_ymd_opt year month day
      | _ => none

/-- Model of `parse_month_day_sequence`: recognises a month-name token
followed by a year, a day, or a day and a year, starting at `index`. -/
def parse_month_day_sequence (tokens : List Str) (index : Nat) (today : NaiveDate) :
    Option (Nat × NaiveDate) :=
  match tokens.get? index with
  | none => none
  | some t0 =>
    match parse_month_token (normalize_date_token t0) with
    | none => none
    | some month =>
      match tokens.get? (index + 1) with
      | none => none
      | some t1 =>
        let second := normalize_date_token t1
        match parse_year_token second with
        | some year => (from_ymd_opt year month 1).map (fun d => (2, d))
        | none =>
          match parse_day_token second with
          | none => none
          | some day =>
            match tokens.get? (index + 2) with
            | some yearToken =>
              match parse_year_token (normalize_date_token yearToken) with
              | some year => (from_ymd_opt year month day).map (fun d => (3, d))
              | none => (infer_year_for_month_day month day today).map (fun d => (2, d))
            | none => (infer_year_for_month_day month day today).map (fun d => (2, d))

/-- A token that the scan loop of `extract_due_date_from_input` skips
outright: one whose first character is `#`, `~` or `!`. -/
def isSkipTok (t : Str) : Bool :=
  match t with
  | [] => false
  | c :: _ => c == '#' || c == '~' || c == '!'

/-- The body of the scan loop of `extract_due_date_from_input` at one index:
returns the number of consumed tokens and the recognised date when one of
the four recognisers (next-week phrase, month-name sequence, numeric token,
relative keyword) matches at `i`, and `none` when the loop would `continue`. -/
def matchesAt (tokens : List Str) (i : Nat) (today : NaiveDate) :
    Option (Nat × NaiveDate) :=
  match tokens.get? i with
  | none => none
  | some token =>
    if isSkipTok token then none
    else
      let normalized := normalize_date_token token
      let nextIsWeek : Bool :=
        match tokens.get? (i + 1) with
        | some t2 => normalize_date_token t2 == "week".toList
        | none => false
      if normalized = [] then none
      else if normalized == "next".toList && nextIsWeek then
        some (2, start_of_next_week today)
      else
        match parse_month_day_sequence tokens i today with
        | some r => some r
        | none =>
          match parse_numeric_date_token normalized today with
          | some date => some (1, date)
          | none =>
            match
              (if normalized = "today".toList then some today
               else if normalized = "tomorrow".toList then some (addDays today 1)
               else (parse_weekday_token normalized).map (next_or_same_weekday today)) with
            | some date => some (1, date)
            | none => none

/-- The scan loop of `extract_due_date_from_input`: tries each index in
order and returns the first match, as (index, consumed, date).  `rem` is the
suffix of `tokens` from index `i`, driving structural recursion. -/
def scanFrom (tokens : List Str) (today : NaiveDate) :
    Nat → List Str → Option (Nat × Nat × NaiveDate)
  | _, [] => none
  | i, _ :: rem =>
    match matchesAt tokens i today with
    | some (k, d) => some (i, k, d)
    | none => scanFrom tokens today (i + 1) rem

/-- Model of the token-removal step of `extract_due_date_from_input`: the
source enumerates the tokens and filters out the indices of the matched
span. -/
def removeSpan (tokens : List Str) (i k : Nat) : List Str :=
  tokens.enum.filterMap fun p => if i ≤ p.1 ∧ p.1 < i + k then none else some p.2

/-- Model of `extract_due_date_from_input`. -/
def extract_due_date_from_input (raw : Str) (today : NaiveDate) :
    Str × Option NaiveDate :=
  let tokens := splitWhitespace raw
  if tokens.isEmpty then ([], none)
  else
    match scanFrom tokens today 0 tokens with
    | some (i, k, d) => (joinSpace (removeSpan tokens i k), some d)
    | none => (trim raw, none)

/-! ## Shorthand filters from `src/cli/task.rs` -/

inductive TaskWhenFilter where
  | today | tomorrow | thisWeek
deriving DecidableEq

/-- Model of the `ShorthandFilters` struct.  The source field `when` is
named `whenF` here. -/
structure ShorthandFilters where
  priority : Option Int
  list : Option Str
  tags : List Str
  whenF : Option TaskWhenFilter
  terms : List Str
deriving DecidableEq

/-- Model of `ShorthandFilters::default()`. -/
def ShorthandFilters.init : ShorthandFilters :=
  ⟨none, none, [], none, []⟩

/-- Model of `parse_priority_shorthand`. -/
def parse_priority_shorthand (t : Str) : Option Int :=
  match stripLeadChar '!' t with
  | none => none
  | some value =>
    let v := value.map toLowerCh
    if v = "high".toList then some 5
    else if v = "medium".toList then some 3
    else if v = "low".toList then some 1
    else if v = "none".toList ∨ v = "normal".toList then some 0
    else none

/-- Model of `parse_when_token`. -/
def parse_when_token (t : Str) : Option TaskWhenFilter :=
  let lower := t.map toLowerCh
  if lower = "today".toList then some .today
  else if lower = "tomorrow".toList then some .tomorrow
  else if lower = "week".toList ∨ lower = "thisweek".toList ∨ lower = "this-week".toList then
    some .thisWeek
  else none

/-- The token loop of `parse_shorthand_with_when`.  The Rust loop walks an
indexed token vector; its only look-ahead (`this` + `week`) inspects the
immediately following token, so the recursion carries the remaining token
list.  A `~`- or `#`-prefixed token with an empty remainder falls through to
the later branches, as in the source. -/
def shorthandGo (pw : Bool) : List Str → ShorthandFilters → ShorthandFilters
  | [], acc => acc
  | t :: rest, acc =>
    match parse_priority_shorthand t with
    | some p => shorthandGo pw rest { acc with priority := some p }
    | none =>
      match stripLeadChar '~' t with
      | some (c :: cs) => shorthandGo pw rest { acc with list := some (c :: cs) }
      | _ =>
        match stripLeadChar '#' t with
        | some (c :: cs) => shorthandGo pw rest { acc with tags := acc.tags ++ [c :: cs] }
        | _ =>
          if pw then
            match hr : rest with
            | w :: rest2 =>
              if eqIgnoreCase t ("this".toList) && eqIgnoreCase w ("week".toList) then
                shorthandGo pw rest2 { acc with whenF := some TaskWhenFilter.thisWeek }
              else
                match parse_when_token t with
                | some w2 => shorthandGo pw rest { acc with whenF := some w2 }
                | none => shorthandGo pw rest { acc with terms := acc.terms ++ [t] }
            | [] =>
              match parse_when_token t with
              | some w2 => shorthandGo pw rest { acc with whenF := some w2 }
              | none => shorthandGo pw rest { acc with terms := acc.terms ++ [t] }
          else shorthandGo pw rest { acc with terms := acc.terms ++ [t] }
termination_by toks _ => toks.length
decreasing_by all_goals (simp_wf) <;> (try subst hr) <;> simp_all <;> omega

/-- Model of `parse_shorthand_with_when`. -/
def parse_shorthand_with_when (raw : Str) (parseWhen : Bool) : ShorthandFilters :=
  shorthandGo parseWhen (splitWhitespace raw) ShorthandFilters.init

/-! ## Tag and list helpers from `src/cli/task.rs` -/

/-- Model of `merge_tags`.  The source mutates `existing` in place; the
model returns the final value. -/
def merge_tags (existing : List Str) (extras : List Str) : List Str :=
  extras.foldl
    (fun acc tag => if acc.any (fun t => eqIgnoreCase t tag) then acc else acc ++ [tag])
    existing

/-- The part of the `Task` model relevant to the claims: its optional tag
list (the remaining fields of the source struct are not read by the
functions under verification). -/
structure Task where
  tags : Option (List Str)

/-- Model of `task_has_all_tags`. -/
def task_has_all_tags (task : Task) (requiredTags : List Str) : Bool :=
  match task.tags with
  | none => false
  | some taskTags =>
    requiredTags.all fun required => taskTags.any fun actual => eqIgnoreCase actual required

/-- Non-ASCII characters carried by the model of Unicode
`char::is_alphanumeric`: the dotted capital I (U+0130) and the E-acute pair.
The combining dot above (U+0307), produced by lowercasing U+0130, is
deliberately absent: it is not alphanumeric in Unicode. -/
def uniAlnumChars : List Char :=
  ['\u0130', '\u00C9', '\u00E9']

/-- Non-ASCII entries of the model of Unicode `char::to_lowercase`: the
dotted capital I lowercases to the two-character sequence `i` followed by
the combining dot above, and E-acute to e-acute. -/
def uniLowerPairs : List (Char × Str) :=
  [('\u0130', ['i', '\u0307']), ('\u00C9', ['\u00E9'])]

/-- Model of Unicode `char::is_alphanumeric`: exact on the ASCII range, and
on the non-ASCII characters of `uniAlnumChars` and `uniLowerPairs`. -/
def isAlphanumericU (c : Char) : Bool :=
  c.isAlphanum || decide (c ∈ uniAlnumChars)

/-- Model of Unicode `char::to_lowercase`, which yields a character
sequence: exact on the ASCII range (a single character there), and on the
non-ASCII characters of `uniAlnumChars` and `uniLowerPairs`. -/
def toLowercaseU (c : Char) : Str :=
  match uniLowerPairs.find? (fun p => p.1 == c) with
  | some p => p.2
  | none => [toLowerCh c]

/-- Model of `normalize_list_name`: keeps alphanumeric and whitespace
characters (Unicode predicates), lowercases with the sequence-valued
Unicode lowercasing, and collapses whitespace runs to single spaces. -/
def normalize_list_name (v : Str) : Str :=
  joinSpace (splitWhitespace
    ((v.filter fun c => isAlphanumericU c || isWs c).flatMap toLowercaseU))

/-- The ASCII restriction of the `normalize_list_name` pipeline: on
all-ASCII input the Unicode predicates coincide with their ASCII
counterparts and lowercasing is single-character, so `normalize_list_name`
agrees with this function (`normalize_list_name_ascii_eq`). -/
def asciiNormalize (v : Str) : Str :=
  joinSpace (splitWhitespace ((v.filter fun c => c.isAlphanum || isWs c).map toLowerCh))

/-- Model of `date_window_for`: the inclusive date window of a `when`
filter. -/
def date_window_for (whenF : TaskWhenFilter) (today : NaiveDate) :
    NaiveDate × NaiveDate :=
  match whenF with
  | .today => (today, today)
  | .tomorrow =>
    let day := addDays today 1
    (day, day)
  | .thisWeek =>
    let start := addDays today (-(weekdayNumFromMonday today : Int))
    (start, addDays start 6)

/-! ## Basic lemmas -/

theorem from_ymd_opt_eq_some {y : Int} {m d : Nat} {dt : NaiveDate} :
    from_ymd_opt y m d = some dt ↔
      (1 ≤ m ∧ m ≤ 12 ∧ 1 ≤ d ∧ d ≤ daysInMonth y m) ∧ dt = ⟨y, m, d⟩ := by
  unfold from_ymd_opt
  split
  · simp_all
    exact eq_comm
  · simp_all

theorem eqIgnoreCase_refl (t : Str) : eqIgnoreCase t t = true := by
  simp [eqIgnoreCase]

/-! ## C1: year inference for a month/day pair without an explicit year -/

/-- C1.  For every (month, day) pair lacking an explicit year and every
reference date `today` such that (today.year, month, day) is a valid
calendar date, `infer_year_for_month_day` yields that very date (whose year
is `today.year`) when it is not before `today`, and otherwise the date with
year `today.year + 1` provided that date is constructible. -/
theorem C1_year_inference (m d : Nat) (today dt : NaiveDate)
    (hvalid : today.isValid = true)
    (h : from_ymd_opt today.year m d = some dt) :
    (NaiveDate.le today dt →
      infer_year_for_month_day m d today = some dt ∧ dt.year = today.year)
    ∧ (¬ NaiveDate.le today dt →
      infer_year_for_month_day m d today = from_ymd_opt (today.year + 1) m d
      ∧ ∀ dt2, from_ymd_opt (today.year + 1) m d = some dt2 →
          dt2.year = today.year + 1) := by
  have hdt : dt = ⟨today.year, m, d⟩ := (from_ymd_opt_eq_some.mp h).2
  simp only [infer_year_for_month_day, h]
  constructor
  · intro hle
    rw [if_pos hle]
    exact ⟨rfl, by rw [hdt]⟩
  · intro hnle
    rw [if_neg hnle]
    refine ⟨rfl, ?_⟩
    intro dt2 h2
    have := (from_ymd_opt_eq_some.mp h2).2
    rw [this]

theorem C1_year_inference_witness :
    infer_year_for_month_day 12 25 ⟨2026, 10, 12⟩ = some ⟨2026, 12, 25⟩ ∧
      (⟨2026, 12, 25⟩ : NaiveDate).year = (⟨2026, 10, 12⟩ : NaiveDate).year :=
  (C1_year_inference 12 25 ⟨2026, 10, 12⟩ ⟨2026, 12, 25⟩ (by decide) (by decide)).1
    (by decide)

/-! ## C4: merge_tags is idempotent and append-only -/

theorem merge_tags_cons (acc : List Str) (t : Str) (ts : List Str) :
    merge_tags acc (t :: ts) =
      merge_tags (if acc.any (fun u => eqIgnoreCase u t) then acc else acc ++ [t]) ts :=
  rfl

theorem merge_tags_nil (acc : List Str) : merge_tags acc [] = acc := rfl

theorem merge_tags_append (extras : List Str) :
    ∀ acc : List Str, ∃ extra, merge_tags acc extras = acc ++ extra ∧
      ∀ x ∈ extra, x ∈ extras := by
  induction extras with
  | nil => intro acc; exact ⟨[], by simp [merge_tags_nil]⟩
  | cons t ts ih =>
    intro acc
    by_cases hany : acc.any (fun u => eqIgnoreCase u t) = true
    · obtain ⟨e, he, hmem⟩ := ih acc
      refine ⟨e, ?_, fun x hx => List.mem_cons_of_mem _ (hmem x hx)⟩
      rw [merge_tags_cons, if_pos hany]
      exact he
    · obtain ⟨e, he, hmem⟩ := ih (acc ++ [t])
      refine ⟨t :: e, ?_, ?_⟩
      · rw [merge_tags_cons, if_neg hany, he, List.append_assoc]
        rfl
      · intro x hx
        rcases List.mem_cons.mp hx with hx | hx
        · rw [hx]; exact List.mem_cons_self t ts
        · exact List.mem_cons_of_mem _ (hmem x hx)

theorem mem_merge_tags_left {x : Str} {acc : List Str} (extras : List Str)
    (hx : x ∈ acc) : x ∈ merge_tags acc extras := by
  obtain ⟨e, he, -⟩ := merge_tags_append extras acc
  rw [he]
  exact List.mem_append_left _ hx

theorem merge_tags_covers (extras : List Str) :
    ∀ (acc : List Str) (b : Str), b ∈ extras →
      ∃ t ∈ merge_tags acc extras, eqIgnoreCase t b = true := by
  induction extras with
  | nil => intro acc b hb; cases hb
  | cons t ts ih =>
    intro acc b hb
    by_cases hany : acc.any (fun u => eqIgnoreCase u t) = true
    · have hstep : merge_tags acc (t :: ts) = merge_tags acc ts := by
        rw [merge_tags_cons, if_pos hany]
      rcases List.mem_cons.mp hb with hb | hb
      · obtain ⟨u, hu, hequ⟩ := List.any_eq_true.mp hany
        exact ⟨u, by rw [hstep]; exact mem_merge_tags_left ts hu, by rw [hb]; exact hequ⟩
      · rw [hstep]; exact ih acc b hb
    · have hstep : merge_tags acc (t :: ts) = merge_tags (acc ++ [t]) ts := by
        rw [merge_tags_cons, if_neg hany]
      rcases List.mem_cons.mp hb with hb | hb
      · refine ⟨t, ?_, by rw [hb]; exact eqIgnoreCase_refl t⟩
        rw [hstep]
        exact mem_merge_tags_left ts (by simp)
      · rw [hstep]; exact ih (acc ++ [t]) b hb

theorem merge_tags_fixed (extras : List Str) :
    ∀ acc : List Str, (∀ b ∈ extras, ∃ t ∈ acc, eqIgnoreCase t b = true) →
      merge_tags acc extras = acc := by
  induction extras with
  | nil => intro acc _; exact merge_tags_nil acc
  | cons t ts ih =>
    intro acc hcov
    have hany : acc.any (fun u => eqIgnoreCase u t) = true := by
      obtain ⟨u, hu, hequ⟩ := hcov t (List.mem_cons_self t ts)
      exact List.any_eq_true.mpr ⟨u, hu, hequ⟩
    rw [merge_tags_cons, if_pos hany]
    exact ih acc (fun b hb => hcov b (List.mem_cons_of_mem _ hb))

/-- C4.  `merge_tags` is idempotent, and it only ever appends to the
existing list (each extra appended only when no case-insensitive match
exists), so the casing and position of the first occurrence of each tag are
preserved. -/
theorem C4_merge_tags_idempotent (A B : List Str) :
    merge_tags (merge_tags A B) B = merge_tags A B ∧
      ∃ extra, merge_tags A B = A ++ extra ∧ ∀ x ∈ extra, x ∈ B := by
  constructor
  · exact merge_tags_fixed B (merge_tags A B) (fun b hb => merge_tags_covers B A b hb)
  · exact merge_tags_append B A

/-! ## C6: task_has_all_tags -/

/-- C6, counterexample.  For a record with no tag list and an empty
requirement, `task_has_all_tags` returns `false`, although every required
tag (there is none) vacuously has a case-insensitive match among the
record's tags. -/
theorem C6_counterexample :
    ¬ ((task_has_all_tags ⟨none⟩ [] = true) ↔
        ∀ r ∈ ([] : List Str), ∃ t ∈ ([] : List Str), eqIgnoreCase t r = true) := by
  decide

/-- C6, amended.  `task_has_all_tags` returns `true` iff the record has a
tag list and every required tag has a case-insensitive match in it; in
particular a record with no tag list satisfies no requirement, not even the
empty one. -/
theorem C6_amended_has_all_tags (task : Task) (req : List Str) :
    task_has_all_tags task req = true ↔
      ∃ tags, task.tags = some tags ∧
        ∀ r ∈ req, ∃ t ∈ tags, eqIgnoreCase t r = true := by
  cases task with
  | mk tg =>
    cases tg with
    | none => simp [task_has_all_tags]
    | some ts =>
      simp [task_has_all_tags, List.all_eq_true, List.any_eq_true]

/-! ## C10: whitespace-only input -/

theorem swRun_all_ws : ∀ l : Str, (∀ c ∈ l, isWs c = true) → swRun [] l = [] := by
  intro l h
  induction l with
  | nil => rfl
  | cons c rest ih =>
    have hc : isWs c = true := h c (List.mem_cons_self c rest)
    simp only [swRun, hc, if_pos rfl, if_true]
    exact ih (fun x hx => h x (List.mem_cons_of_mem _ hx))

/-- C10.  On an input consisting only of whitespace (including the empty
string), `extract_due_date_from_input` returns the empty string and no
date. -/
theorem C10_whitespace_input (raw : Str) (today : NaiveDate)
    (h : ∀ c ∈ raw, isWs c = true) :
    extract_due_date_from_input raw today = ([], none) := by
  unfold extract_due_date_from_input splitWhitespace
  rw [swRun_all_ws raw h]
  rfl

theorem C10_whitespace_input_witness :
    extract_due_date_from_input [' ', '\t'] ⟨2026, 10, 12⟩ = ([], none) :=
  C10_whitespace_input [' ', '\t'] ⟨2026, 10, 12⟩ (by decide)

/-! ## Calendar lemmas for the week window -/

theorem NaiveDate.le_rfl (a : NaiveDate) : NaiveDate.le a a := by
  unfold NaiveDate.le
  omega

theorem NaiveDate.le_trans {a b c : NaiveDate}
    (h1 : NaiveDate.le a b) (h2 : NaiveDate.le b c) : NaiveDate.le a c := by
  unfold NaiveDate.le at *
  omega

theorem le_prevDay (dt : NaiveDate) : NaiveDate.le (prevDay dt) dt := by
  obtain ⟨y, m, d⟩ := dt
  unfold prevDay NaiveDate.le
  dsimp only
  split
  · dsimp only; omega
  · split <;> (dsimp only; omega)

theorem le_nextDay (dt : NaiveDate) : NaiveDate.le dt (nextDay dt) := by
  obtain ⟨y, m, d⟩ := dt
  unfold nextDay NaiveDate.le
  dsimp only
  split
  · dsimp only; omega
  · split <;> (dsimp only; omega)

theorem isLeapYear_iff (y : Int) :
    isLeapYear y = true ↔ (y % 4 = 0 ∧ (¬ y % 100 = 0 ∨ y % 400 = 0)) := by
  simp [isLeapYear]

theorem isValid_prevDay (dt : NaiveDate) (h : dt.isValid = true) :
    (prevDay dt).isValid = true := by
  obtain ⟨y, m, d⟩ := dt
  simp only [NaiveDate.isValid, decide_eq_true_eq] at h
  obtain ⟨hm1, hm2, hd1, hd2⟩ := h
  unfold prevDay
  dsimp only at *
  by_cases h1 : 1 < d
  · rw [if_pos h1]
    simp only [NaiveDate.isValid, decide_eq_true_eq]
    omega
  · rw [if_neg h1]
    by_cases h2 : 1 < m
    · rw [if_pos h2]
      simp only [NaiveDate.isValid, decide_eq_true_eq]
      refine ⟨by omega, by omega, ?_, Nat.le_refl _⟩
      interval_cases m <;> by_cases hl : isLeapYear y = true <;> simp [daysInMonth, hl]
    · rw [if_neg h2]
      simp only [NaiveDate.isValid, decide_eq_true_eq]
      simp [daysInMonth]

theorem rd_prevDay (dt : NaiveDate) (h : dt.isValid = true) :
    rd (prevDay dt) = rd dt - 1 := by
  obtain ⟨y, m, d⟩ := dt
  simp only [NaiveDate.isValid, decide_eq_true_eq] at h
  obtain ⟨hm1, hm2, hd1, hd2⟩ := h
  unfold prevDay
  dsimp only at *
  by_cases h1 : 1 < d
  · rw [if_pos h1]
    unfold rd
    dsimp only
    omega
  · rw [if_neg h1]
    have hd : d = 1 := by omega
    subst hd
    by_cases h2 : 1 < m
    · rw [if_pos h2]
      unfold rd
      dsimp only
      interval_cases m <;> by_cases hl : isLeapYear y = true <;>
        (simp [daysBeforeMonth, daysInMonth, hl] <;> omega)
    · rw [if_neg h2]
      have hm : m = 1 := by omega
      subst hm
      unfold rd
      dsimp only
      by_cases hl : isLeapYear (y - 1) = true
      · have hp := (isLeapYear_iff (y - 1)).mp hl
        simp [daysBeforeMonth, daysInMonth, hl]
        omega
      · have hp : ¬ ((y - 1) % 4 = 0 ∧ (¬ (y - 1) % 100 = 0 ∨ (y - 1) % 400 = 0)) :=
          fun hc => hl ((isLeapYear_iff (y - 1)).mpr hc)
        push_neg at hp
        simp [daysBeforeMonth, daysInMonth, hl]
        omega

theorem nextDay_prevDay (dt : NaiveDate) (h : dt.isValid = true) :
    nextDay (prevDay dt) = dt := by
  obtain ⟨y, m, d⟩ := dt
  simp only [NaiveDate.isValid, decide_eq_true_eq] at h
  obtain ⟨hm1, hm2, hd1, hd2⟩ := h
  unfold prevDay
  dsimp only at *
  by_cases h1 : 1 < d
  · rw [if_pos h1]
    unfold nextDay
    dsimp only
    rw [if_pos (by omega)]
    congr 1
    omega
  · rw [if_neg h1]
    have hd : d = 1 := by omega
    subst hd
    by_cases h2 : 1 < m
    · rw [if_pos h2]
      unfold nextDay
      dsimp only
      rw [if_neg (by omega), if_pos (by omega)]
      congr 1 <;> omega
    · rw [if_neg h2]
      have hm : m = 1 := by omega
      subst hm
      unfold nextDay daysInMonth
      dsimp only
      rw [if_neg (by omega), if_neg (by omega)]
      congr 1
      omega

theorem prevDayIter_spec (k : Nat) :
    ∀ dt : NaiveDate, dt.isValid = true →
      (prevDayIter k dt).isValid = true ∧ rd (prevDayIter k dt) = rd dt - k := by
  induction k with
  | zero => intro dt h; exact ⟨h, by simp [prevDayIter]⟩
  | succ k ih =>
    intro dt h
    have hv := isValid_prevDay dt h
    have hrd := rd_prevDay dt h
    have := ih (prevDay dt) hv
    refine ⟨this.1, ?_⟩
    show rd (prevDayIter k (prevDay dt)) = rd dt - (k + 1 : Nat)
    rw [this.2, hrd]
    push_cast
    ring

theorem le_prevDayIter (k : Nat) :
    ∀ dt : NaiveDate, NaiveDate.le (prevDayIter k dt) dt := by
  induction k with
  | zero => intro dt; exact NaiveDate.le_rfl dt
  | succ k ih =>
    intro dt
    exact NaiveDate.le_trans (ih (prevDay dt)) (le_prevDay dt)

theorem le_nextDayIter (k : Nat) :
    ∀ dt : NaiveDate, NaiveDate.le dt (nextDayIter k dt) := by
  induction k with
  | zero => intro dt; exact NaiveDate.le_rfl dt
  | succ k ih =>
    intro dt
    exact NaiveDate.le_trans (le_nextDay dt) (ih (nextDay dt))

theorem nextDayIter_add (a b : Nat) :
    ∀ dt : NaiveDate, nextDayIter (a + b) dt = nextDayIter a (nextDayIter b dt) := by
  induction b with
  | zero => intro dt; rfl
  | succ b ih =>
    intro dt
    show nextDayIter (a + b + 1) dt = nextDayIter a (nextDayIter (b + 1) dt)
    have h1 : nextDayIter (a + b + 1) dt = nextDayIter (a + b) (nextDay dt) := rfl
    rw [h1, ih (nextDay dt)]
    rfl

theorem nextDayIter_prevDayIter (k : Nat) :
    ∀ dt : NaiveDate, dt.isValid = true →
      nextDayIter k (prevDayIter k dt) = dt := by
  induction k with
  | zero => intro dt _; rfl
  | succ k ih =>
    intro dt h
    have hv := isValid_prevDay dt h
    have h1 : prevDayIter (k + 1) dt = prevDayIter k (prevDay dt) := rfl
    have h2 : (k + 1) = 1 + k := by omega
    rw [h1, h2, nextDayIter_add 1 k, ih (prevDay dt) hv]
    show nextDay (prevDay dt) = dt
    exact nextDay_prevDay dt h

theorem addDays_neg_coe (dt : NaiveDate) (k : Nat) :
    addDays dt (-(k : Int)) = prevDayIter k dt := by
  unfold addDays
  by_cases hk : k = 0
  · subst hk
    rw [if_pos (by omega)]
    rfl
  · rw [if_neg (by omega)]
    congr 1
    omega

theorem addDays_six (dt : NaiveDate) : addDays dt 6 = nextDayIter 6 dt := by
  unfold addDays
  rw [if_pos (by omega)]
  rfl

/-- C3.  The `ThisWeek` window is a 7-day inclusive span: its start is a
Monday, its end is the start plus six days, and it contains `today`. -/
theorem C3_this_week_window (today : NaiveDate) (h : today.isValid = true) :
    weekdayNumFromMonday (date_window_for .thisWeek today).1 = 0
    ∧ (date_window_for .thisWeek today).2
        = addDays (date_window_for .thisWeek today).1 6
    ∧ NaiveDate.le (date_window_for .thisWeek today).1 today
    ∧ NaiveDate.le today (date_window_for .thisWeek today).2 := by
  have hwin : date_window_for .thisWeek today =
      (addDays today (-(weekdayNumFromMonday today : Int)),
        addDays (addDays today (-(weekdayNumFromMonday today : Int))) 6) := rfl
  rw [hwin]
  dsimp only
  rw [addDays_neg_coe, addDays_six]
  have hwd : (weekdayNumFromMonday today : Int) = (rd today - 1) % 7 := by
    unfold weekdayNumFromMonday
    have := Int.emod_nonneg (rd today - 1) (by norm_num : (7 : Int) ≠ 0)
    omega
  have hwd6 : weekdayNumFromMonday today ≤ 6 := by
    have h7 := Int.emod_lt_of_pos (rd today - 1) (by norm_num : (0 : Int) < 7)
    have h0 := Int.emod_nonneg (rd today - 1) (by norm_num : (7 : Int) ≠ 0)
    unfold weekdayNumFromMonday
    omega
  obtain ⟨hv, hrd⟩ := prevDayIter_spec (weekdayNumFromMonday today) today h
  refine ⟨?_, rfl, le_prevDayIter _ today, ?_⟩
  · show ((rd (prevDayIter (weekdayNumFromMonday today) today) - 1) % 7).toNat = 0
    rw [hrd]
    omega
  · have hsplit : (6 : Nat) = (6 - weekdayNumFromMonday today) + weekdayNumFromMonday today := by
      omega
    rw [hsplit, nextDayIter_add,
      nextDayIter_prevDayIter (weekdayNumFromMonday today) today h]
    exact le_nextDayIter _ today

/-! ## Scan-loop lemmas for extract_due_date_from_input -/

theorem scanFrom_none (tokens : List Str) (today : NaiveDate)
    (h : ∀ i, matchesAt tokens i today = none) :
    ∀ (rem : List Str) (j : Nat), scanFrom tokens today j rem = none := by
  intro rem
  induction rem with
  | nil => intro j; rfl
  | cons t rem ih =>
    intro j
    show (match matchesAt tokens j today with
          | some (k, d) => some (j, k, d)
          | none => scanFrom tokens today (j + 1) rem) = none
    rw [h j]
    exact ih (j + 1)

theorem scanFrom_some_matches (tokens : List Str) (today : NaiveDate) :
    ∀ (rem : List Str) (j i k : Nat) (d : NaiveDate),
      scanFrom tokens today j rem = some (i, k, d) →
      matchesAt tokens i today = some (k, d) := by
  intro rem
  induction rem with
  | nil => intro j i k d h; cases h
  | cons t rem ih =>
    intro j i k d h
    rw [show scanFrom tokens today j (t :: rem) =
          (match matchesAt tokens j today with
           | some (k, d) => some (j, k, d)
           | none => scanFrom tokens today (j + 1) rem) from rfl] at h
    cases hm : matchesAt tokens j today with
    | none =>
      rw [hm] at h
      exact ih (j + 1) i k d h
    | some r =>
      obtain ⟨k2, d2⟩ := r
      rw [hm] at h
      cases h
      exact hm

theorem matchesAt_skip {tokens : List Str} {i : Nat} {today : NaiveDate} {t : Str}
    (ht : tokens.get? i = some t) (hs : isSkipTok t = true) :
    matchesAt tokens i today = none := by
  unfold matchesAt
  rw [ht]
  dsimp only
  rw [if_pos hs]

theorem matchesAt_not_skip {tokens : List Str} {i k : Nat} {today d : NaiveDate}
    (h : matchesAt tokens i today = some (k, d)) :
    ∀ t, tokens.get? i = some t → isSkipTok t = false := by
  intro t ht
  cases hs : isSkipTok t with
  | false => rfl
  | true =>
    rw [matchesAt_skip ht hs] at h
    cases h

theorem enumFrom_removeSpan (i k : Nat) (l : List Str) :
    ∀ n : Nat,
      ((List.enumFrom n l).filterMap
        (fun p => if i ≤ p.1 ∧ p.1 < i + k then none else some p.2))
      = if i + k ≤ n then l
        else if n ≤ i then l.take (i - n) ++ l.drop (i + k - n)
        else l.drop (i + k - n) := by
  induction l with
  | nil =>
    intro n
    simp only [List.enumFrom_nil, List.filterMap_nil, List.take_nil, List.drop_nil,
      List.append_nil]
    split_ifs <;> rfl
  | cons x l ih =>
    intro n
    simp only [List.enumFrom_cons, List.filterMap_cons]
    by_cases hdrop : i ≤ n ∧ n < i + k
    · rw [if_pos hdrop, ih (n + 1)]
      have hdx : (x :: l).drop (i + k - n) = l.drop (i + k - n - 1) := by
        obtain ⟨j, hj⟩ : ∃ j, i + k - n = j + 1 := ⟨i + k - n - 1, by omega⟩
        rw [hj, List.drop_succ_cons]
        congr 1 <;> omega
      rw [if_neg (show ¬ i + k ≤ n from by omega)]
      by_cases hni : n ≤ i
      · rw [if_pos hni, show i - n = 0 from by omega, List.take_zero,
          List.nil_append, hdx]
        split_ifs with hA hB
        · rw [show i + k - n - 1 = 0 from by omega, List.drop_zero]
        · omega
        · rw [show i + k - (n + 1) = i + k - n - 1 from by omega]
      · rw [if_neg hni, hdx]
        split_ifs with hA hB
        · rw [show i + k - n - 1 = 0 from by omega, List.drop_zero]
        · omega
        · rw [show i + k - (n + 1) = i + k - n - 1 from by omega]
    · rw [if_neg hdrop, ih (n + 1)]
      by_cases hge : i + k ≤ n
      · rw [if_pos hge, if_pos (show i + k ≤ n + 1 from by omega)]
      · have hni : n < i := by omega
        obtain ⟨j1, hj1⟩ : ∃ j, i - n = j + 1 := ⟨i - n - 1, by omega⟩
        obtain ⟨j2, hj2⟩ : ∃ j, i + k - n = j + 1 := ⟨i + k - n - 1, by omega⟩
        rw [if_neg hge, if_pos (show n ≤ i from by omega), hj1, hj2,
          List.take_succ_cons, List.drop_succ_cons, List.cons_append]
        have hj1e : j1 = i - n - 1 := by omega
        have hj2e : j2 = i + k - n - 1 := by omega
        subst hj1e
        subst hj2e
        congr 1
        split_ifs with hA hB
        · rw [show i - n - 1 = 0 from by omega, show i + k - n - 1 = 0 from by omega,
            List.take_zero, List.drop_zero, List.nil_append]
        · rw [show i - (n + 1) = i - n - 1 from by omega,
            show i + k - (n + 1) = i + k - n - 1 from by omega]
        · omega

theorem removeSpan_eq (tokens : List Str) (i k : Nat) :
    removeSpan tokens i k = tokens.take i ++ tokens.drop (i + k) := by
  show (List.enumFrom 0 tokens).filterMap
      (fun p => if i ≤ p.1 ∧ p.1 < i + k then none else some p.2)
    = tokens.take i ++ tokens.drop (i + k)
  rw [enumFrom_removeSpan i k tokens 0]
  split_ifs with hA hB
  · have hi : i = 0 := by omega
    have hk : k = 0 := by omega
    subst hi
    subst hk
    simp
  · simp
  · omega

theorem swRun_ne_nil (l : Str) :
    ∀ cur : Str, cur ≠ [] → swRun cur l ≠ [] := by
  induction l with
  | nil =>
    intro cur hc
    show (if cur = [] then [] else [cur.reverse]) ≠ []
    rw [if_neg hc]
    simp
  | cons c rest ih =>
    intro cur hc
    show (if isWs c then
            if cur = [] then swRun [] rest else cur.reverse :: swRun [] rest
          else swRun (c :: cur) rest) ≠ []
    by_cases hw : isWs c
    · rw [if_pos hw, if_neg hc]
      simp
    · rw [if_neg hw]
      exact ih (c :: cur) (by simp)

theorem all_ws_of_swRun_nil (l : Str) (h : swRun [] l = []) :
    ∀ c ∈ l, isWs c = true := by
  induction l with
  | nil => intro c hc; cases hc
  | cons c rest ih =>
    rw [show swRun [] (c :: rest) =
          (if isWs c then swRun [] rest else swRun [c] rest) from by
        show (if isWs c then
                if ([] : Str) = [] then swRun [] rest else _
              else swRun [c] rest) = _
        rw [if_pos rfl]] at h
    by_cases hw : isWs c
    · rw [if_pos hw] at h
      intro x hx
      rcases List.mem_cons.mp hx with hx | hx
      · rw [hx]; exact hw
      · exact ih h x hx
    · rw [if_neg hw] at h
      exact absurd h (swRun_ne_nil rest [c] (by simp))

theorem trim_eq_nil_of_all_ws (raw : Str) (h : ∀ c ∈ raw, isWs c = true) :
    trim raw = [] := by
  have h1 : raw.dropWhile isWs = [] :=
    List.dropWhile_eq_nil_iff.mpr (fun a ha => h a ha)
  unfold trim
  rw [h1]
  rfl

/-! ## C5: structure of extract_due_date_from_input -/

/-- C5.  If no recognizer matches at any token position, the extractor
returns the trimmed input and no date; when the scan finds a match of `k`
tokens at index `i`, it returns exactly the token list with that span
removed, rejoined with single spaces, together with the recognised date. -/
theorem C5_extract_structure (raw : Str) (today : NaiveDate) :
    ((∀ i, matchesAt (splitWhitespace raw) i today = none) →
        extract_due_date_from_input raw today = (trim raw, none))
    ∧ (∀ i k d,
        scanFrom (splitWhitespace raw) today 0 (splitWhitespace raw) = some (i, k, d) →
        matchesAt (splitWhitespace raw) i today = some (k, d)
        ∧ extract_due_date_from_input raw today
          = (joinSpace
               ((splitWhitespace raw).take i ++ (splitWhitespace raw).drop (i + k)),
              some d)) := by
  constructor
  · intro h
    unfold extract_due_date_from_input
    by_cases he : (splitWhitespace raw).isEmpty
    · rw [if_pos he]
      have hnil : splitWhitespace raw = [] := by
        cases hsw : splitWhitespace raw
        · rfl
        · rw [hsw] at he; cases he
      have := trim_eq_nil_of_all_ws raw (all_ws_of_swRun_nil raw hnil)
      rw [this]
    · rw [if_neg he, scanFrom_none (splitWhitespace raw) today h _ 0]
  · intro i k d hscan
    refine ⟨scanFrom_some_matches _ today _ 0 i k d hscan, ?_⟩
    unfold extract_due_date_from_input
    have hne : ¬ (splitWhitespace raw).isEmpty := by
      intro he
      have hnil : splitWhitespace raw = [] := by
        cases hsw : splitWhitespace raw
        · rfl
        · rw [hsw] at he; cases he
      rw [hnil] at hscan
      cases hscan
    rw [if_neg hne, hscan]
    dsimp only
    rw [removeSpan_eq]

theorem C5_extract_structure_witness :
    matchesAt (splitWhitespace ("buy milk tomorrow".toList)) 2 ⟨2026, 10, 12⟩
        = some (1, ⟨2026, 10, 13⟩)
    ∧ extract_due_date_from_input ("buy milk tomorrow".toList) ⟨2026, 10, 12⟩
      = (joinSpace
           ((splitWhitespace ("buy milk tomorrow".toList)).take 2
             ++ (splitWhitespace ("buy milk tomorrow".toList)).drop (2 + 1)),
          some ⟨2026, 10, 13⟩) :=
  (C5_extract_structure ("buy milk tomorrow".toList) ⟨2026, 10, 12⟩).2 2 1
    ⟨2026, 10, 13⟩ (by decide)

/-! ## C2: prefix-marked tokens and the date recognizers -/

/-- C2, counterexample.  In the input `jan #5` the token `#5` starts with
`#`, yet the month-name recognizer consumes it as its look-ahead day token:
the cleaned title is empty, so the `#5` token does not survive. -/
theorem C2_counterexample :
    ("#5".toList ∈ splitWhitespace ("jan #5".toList)
      ∧ List.head? ("#5".toList) = some '#')
    ∧ (extract_due_date_from_input ("jan #5".toList) ⟨2026, 10, 12⟩).1 = []
    ∧ "#5".toList ∉
        splitWhitespace (extract_due_date_from_input ("jan #5".toList)
          ⟨2026, 10, 12⟩).1 := by
  decide

/-- C2, amended.  A token whose first character is `#`, `~` or `!` is never
the token at which a recognizer match begins (it is skipped as a date
candidate at its own scan position), although it can still be consumed by
the look-ahead of the next-week or month-name recognizers. -/
theorem C2_amended_skip_tokens_never_start_match (raw : Str) (today : NaiveDate)
    (i k : Nat) (d : NaiveDate) (t : Str)
    (hscan : scanFrom (splitWhitespace raw) today 0 (splitWhitespace raw)
      = some (i, k, d))
    (ht : (splitWhitespace raw).get? i = some t) :
    isSkipTok t = false :=
  matchesAt_not_skip
    (scanFrom_some_matches (splitWhitespace raw) today (splitWhitespace raw) 0 i k d
      hscan) t ht

theorem C2_amended_skip_tokens_never_start_match_witness :
    isSkipTok ("today".toList) = false :=
  C2_amended_skip_tokens_never_start_match ("#x today".toList) ⟨2026, 10, 12⟩ 1 1
    ⟨2026, 10, 12⟩ ("today".toList) (by decide) (by decide)

/-! ## C9: date-token normalization tolerates surrounding punctuation -/

theorem dropWhile_append_all {p : Char → Bool} (a : Str)
    (h : ∀ c ∈ a, p c = true) (b : Str) :
    (a ++ b).dropWhile p = b.dropWhile p := by
  induction a with
  | nil => rfl
  | cons c a ih =>
    rw [List.cons_append, List.dropWhile_cons, if_pos (h c (List.mem_cons_self c a))]
    exact ih (fun x hx => h x (List.mem_cons_of_mem _ hx))

theorem normalize_date_token_strip (pre core suf : Str)
    (hp : ∀ c ∈ pre, keepDT c = false) (hs : ∀ c ∈ suf, keepDT c = false) :
    normalize_date_token (pre ++ core ++ suf) = normalize_date_token core := by
  have hp2 : ∀ c ∈ pre, (!keepDT c) = true := fun c hc => by rw [hp c hc]; rfl
  have hs2 : ∀ c ∈ suf, (!keepDT c) = true := fun c hc => by rw [hs c hc]; rfl
  unfold normalize_date_token
  congr 1
  rw [List.append_assoc, dropWhile_append_all pre hp2 (core ++ suf),
    List.dropWhile_append]
  by_cases hc : (core.dropWhile fun c => !keepDT c).isEmpty
  · rw [if_pos hc]
    have hsnil : suf.dropWhile (fun c => !keepDT c) = [] :=
      List.dropWhile_eq_nil_iff.mpr (fun a ha => hs2 a ha)
    have hcnil : core.dropWhile (fun c => !keepDT c) = [] := by
      cases hcc : core.dropWhile fun c => !keepDT c
      · rfl
      · rw [hcc] at hc; cases hc
    rw [hsnil, hcnil]
  · rw [if_neg hc, List.reverse_append,
      dropWhile_append_all suf.reverse
        (fun c hcm => hs2 c (List.mem_reverse.mp hcm))]

/-- C9.  Before any recognizer is tried, a candidate token is normalized:
leading and trailing characters that are neither ASCII alphanumeric nor `/`
nor `-` are stripped and the token is lower-cased, so `today,`, `(friday)`
and `Jan.` are recognized and consumed exactly as their bare lower-case
forms would be. -/
theorem C9_punctuation_tolerant :
    (∀ pre core suf : Str,
        (∀ c ∈ pre, keepDT c = false) → (∀ c ∈ suf, keepDT c = false) →
        normalize_date_token (pre ++ core ++ suf) = normalize_date_token core)
    ∧ extract_due_date_from_input ("pay today,".toList) ⟨2026, 10, 12⟩
        = extract_due_date_from_input ("pay today".toList) ⟨2026, 10, 12⟩
    ∧ extract_due_date_from_input ("meet (friday)".toList) ⟨2026, 10, 12⟩
        = extract_due_date_from_input ("meet friday".toList) ⟨2026, 10, 12⟩
    ∧ extract_due_date_from_input ("do Jan. 5".toList) ⟨2026, 10, 12⟩
        = extract_due_date_from_input ("do jan 5".toList) ⟨2026, 10, 12⟩ :=
  ⟨fun pre core suf hp hs => normalize_date_token_strip pre core suf hp hs,
    by decide, by decide, by decide⟩

theorem C9_punctuation_tolerant_witness :
    normalize_date_token (['('] ++ "friday".toList ++ [')'])
      = normalize_date_token ("friday".toList) :=
  C9_punctuation_tolerant.1 ['('] ("friday".toList) [')'] (by decide) (by decide)

/-! ## C8: normalize_list_name is idempotent and produces normal form -/

theorem toLowerCh_pairs_facts :
    ∀ p ∈ lowerPairs, toLowerCh p.2 = p.2 ∧ (p.2).isAlphanum = true
      ∧ isWs p.2 = false ∧ (p.1).isAlphanum = true ∧ isWs p.1 = false := by
  decide

theorem toLowerCh_spec (c : Char) :
    toLowerCh c = c ∨ (c, toLowerCh c) ∈ lowerPairs := by
  unfold toLowerCh
  cases hf : lowerPairs.find? (fun p => p.1 == c) with
  | none => exact Or.inl rfl
  | some p =>
    right
    have hmem := List.mem_of_find?_eq_some hf
    have hpc := List.find?_some hf
    have hp1 : p.1 = c := by simpa using hpc
    obtain ⟨a, b⟩ := p
    dsimp only at hp1 ⊢
    rw [← hp1]
    exact hmem

theorem toLowerCh_idem (c : Char) : toLowerCh (toLowerCh c) = toLowerCh c := by
  rcases toLowerCh_spec c with h | h
  · rw [h, h]
  · exact (toLowerCh_pairs_facts _ h).1

theorem isAlphanum_toLowerCh (c : Char) (h : c.isAlphanum = true) :
    (toLowerCh c).isAlphanum = true := by
  rcases toLowerCh_spec c with hs | hs
  · rw [hs]; exact h
  · exact (toLowerCh_pairs_facts _ hs).2.1

theorem isWs_toLowerCh (c : Char) : isWs (toLowerCh c) = isWs c := by
  rcases toLowerCh_spec c with hs | hs
  · rw [hs]
  · have h2 : isWs (toLowerCh c) = false := (toLowerCh_pairs_facts _ hs).2.2.1
    have h1 : isWs c = false := (toLowerCh_pairs_facts _ hs).2.2.2.2
    rw [h1, h2]

theorem swRun_words (l : Str) :
    ∀ cur : Str, (∀ c ∈ cur, isWs c = false) →
      ∀ w ∈ swRun cur l, w ≠ [] ∧ ∀ c ∈ w, isWs c = false ∧ (c ∈ cur ∨ c ∈ l) := by
  induction l with
  | nil =>
    intro cur hcur w hw
    rw [show swRun cur [] = if cur = [] then [] else [cur.reverse] from rfl] at hw
    by_cases hc : cur = []
    · rw [if_pos hc] at hw
      cases hw
    · rw [if_neg hc] at hw
      have hwe : w = cur.reverse := List.mem_singleton.mp hw
      subst hwe
      refine ⟨by simpa using hc, ?_⟩
      intro c hcm
      have hmem : c ∈ cur := List.mem_reverse.mp hcm
      exact ⟨hcur c hmem, Or.inl hmem⟩
  | cons a rest ih =>
    intro cur hcur w hw
    rw [show swRun cur (a :: rest)
          = if isWs a then
              (if cur = [] then swRun [] rest else cur.reverse :: swRun [] rest)
            else swRun (a :: cur) rest from rfl] at hw
    by_cases hws : isWs a = true
    · rw [if_pos hws] at hw
      have hlift : ∀ w2 ∈ swRun [] rest, w2 ≠ [] ∧
          ∀ c ∈ w2, isWs c = false ∧ (c ∈ cur ∨ c ∈ a :: rest) := by
        intro w2 hw2
        obtain ⟨hne, hcc⟩ := ih [] (by intro c hc2; cases hc2) w2 hw2
        refine ⟨hne, ?_⟩
        intro c hcm
        obtain ⟨h1, h2⟩ := hcc c hcm
        refine ⟨h1, ?_⟩
        rcases h2 with h | h
        · cases h
        · exact Or.inr (List.mem_cons_of_mem _ h)
      by_cases hc : cur = []
      · rw [if_pos hc] at hw
        exact hlift w hw
      · rw [if_neg hc] at hw
        rcases List.mem_cons.mp hw with hwe | hw
        · subst hwe
          refine ⟨by simpa using hc, ?_⟩
          intro c hcm
          have hmem : c ∈ cur := List.mem_reverse.mp hcm
          exact ⟨hcur c hmem, Or.inl hmem⟩
        · exact hlift w hw
    · rw [if_neg hws] at hw
      have hws2 : isWs a = false := by simpa using hws
      have hcur2 : ∀ c ∈ a :: cur, isWs c = false := by
        intro c hc2
        rcases List.mem_cons.mp hc2 with hce | hc2
        · rw [hce]; exact hws2
        · exact hcur c hc2
      obtain ⟨hne, hcc⟩ := ih (a :: cur) hcur2 w hw
      refine ⟨hne, ?_⟩
      intro c hcm
      obtain ⟨h1, h2⟩ := hcc c hcm
      refine ⟨h1, ?_⟩
      rcases h2 with h | h
      · rcases List.mem_cons.mp h with hce | h
        · exact Or.inr (by rw [hce]; exact List.mem_cons_self a rest)
        · exact Or.inl h
      · exact Or.inr (List.mem_cons_of_mem _ h)

theorem splitWhitespace_words (l : Str) :
    ∀ w ∈ splitWhitespace l, w ≠ [] ∧ ∀ c ∈ w, isWs c = false ∧ c ∈ l := by
  intro w hw
  obtain ⟨hne, hcc⟩ := swRun_words l [] (by intro c hc; cases hc) w hw
  refine ⟨hne, fun c hcm => ⟨(hcc c hcm).1, ?_⟩⟩
  rcases (hcc c hcm).2 with h | h
  · cases h
  · exact h

theorem swRun_word (w : Str) (hw : ∀ c ∈ w, isWs c = false) :
    ∀ (cur l : Str), swRun cur (w ++ l) = swRun (w.reverse ++ cur) l := by
  induction w with
  | nil => intro cur l; simp
  | cons a w2 ih =>
    intro cur l
    have ha : isWs a = false := hw a (List.mem_cons_self a w2)
    rw [List.cons_append,
      show swRun cur (a :: (w2 ++ l))
          = if isWs a then
              (if cur = [] then swRun [] (w2 ++ l)
               else cur.reverse :: swRun [] (w2 ++ l))
            else swRun (a :: cur) (w2 ++ l) from rfl,
      if_neg (by rw [ha]; exact Bool.false_ne_true),
      ih (fun c hc => hw c (List.mem_cons_of_mem _ hc)) (a :: cur) l,
      List.reverse_cons, List.append_assoc]
    rfl

theorem splitWhitespace_join (ws : List Str)
    (h : ∀ w ∈ ws, w ≠ [] ∧ ∀ c ∈ w, isWs c = false) :
    splitWhitespace (joinSpace ws) = ws := by
  induction ws with
  | nil => rfl
  | cons w ws2 ih =>
    obtain ⟨hne, hnws⟩ := h w (List.mem_cons_self w ws2)
    cases ws2 with
    | nil =>
      show swRun [] (joinSpace [w]) = [w]
      have hsw := swRun_word w hnws [] []
      rw [List.append_nil, List.append_nil] at hsw
      rw [show joinSpace [w] = w from rfl, hsw]
      rw [show swRun w.reverse [] = if w.reverse = [] then [] else [w.reverse.reverse]
        from rfl]
      rw [if_neg (by simpa using hne), List.reverse_reverse]
    | cons w2 rest =>
      show swRun [] (joinSpace (w :: w2 :: rest)) = w :: w2 :: rest
      rw [show joinSpace (w :: w2 :: rest) = w ++ ' ' :: joinSpace (w2 :: rest)
        from rfl]
      rw [swRun_word w hnws [] (' ' :: joinSpace (w2 :: rest)), List.append_nil]
      rw [show swRun w.reverse (' ' :: joinSpace (w2 :: rest))
            = if isWs ' ' then
                (if w.reverse = [] then swRun [] (joinSpace (w2 :: rest))
                 else w.reverse.reverse :: swRun [] (joinSpace (w2 :: rest)))
              else swRun (' ' :: w.reverse) (joinSpace (w2 :: rest)) from rfl]
      rw [if_pos (show isWs ' ' = true from rfl), if_neg (by simpa using hne),
        List.reverse_reverse]
      exact congrArg (w :: ·) (ih (fun x hx => h x (List.mem_cons_of_mem _ hx)))

theorem mem_joinSpace {c : Char} :
    ∀ ws : List Str, c ∈ joinSpace ws → c = ' ' ∨ ∃ w ∈ ws, c ∈ w := by
  intro ws
  induction ws with
  | nil => intro h; cases h
  | cons w ws2 ih =>
    cases ws2 with
    | nil =>
      intro h
      rw [show joinSpace [w] = w from rfl] at h
      exact Or.inr ⟨w, List.mem_cons_self w [], h⟩
    | cons w2 rest =>
      intro h
      rw [show joinSpace (w :: w2 :: rest) = w ++ ' ' :: joinSpace (w2 :: rest)
        from rfl] at h
      rcases List.mem_append.mp h with h | h
      · exact Or.inr ⟨w, List.mem_cons_self _ _, h⟩
      · rcases List.mem_cons.mp h with h | h
        · exact Or.inl h
        · rcases ih h with h | hex
          · exact Or.inl h
          · obtain ⟨w3, hw3, hc3⟩ := hex
            exact Or.inr ⟨w3, List.mem_cons_of_mem _ hw3, hc3⟩

theorem map_id_on {f : Char → Char} :
    ∀ l : Str, (∀ c ∈ l, f c = c) → l.map f = l := by
  intro l h
  induction l with
  | nil => rfl
  | cons c rest ih =>
    rw [List.map_cons, h c (List.mem_cons_self _ _),
      ih (fun x hx => h x (List.mem_cons_of_mem _ hx))]

theorem filter_id_on {f : Char → Bool} :
    ∀ l : Str, (∀ c ∈ l, f c = true) → l.filter f = l := by
  intro l h
  induction l with
  | nil => rfl
  | cons c rest ih =>
    rw [List.filter_cons, if_pos (h c (List.mem_cons_self _ _)),
      ih (fun x hx => h x (List.mem_cons_of_mem _ hx))]

/-- The ASCII pipeline underlying `normalize_list_name` is idempotent, and
its output is a list of nonempty words of lower-case alphanumeric
characters joined by single spaces. -/
theorem asciiNormalize_spec (v : Str) :
    asciiNormalize (asciiNormalize v) = asciiNormalize v
    ∧ ∃ ws, asciiNormalize v = joinSpace ws ∧
        ∀ w ∈ ws, w ≠ [] ∧ ∀ c ∈ w, c.isAlphanum = true ∧ toLowerCh c = c := by
  have hnv : asciiNormalize v
      = joinSpace (splitWhitespace
          ((v.filter fun c => c.isAlphanum || isWs c).map toLowerCh)) := rfl
  have hwp : ∀ w ∈ splitWhitespace
        ((v.filter fun c => c.isAlphanum || isWs c).map toLowerCh),
      w ≠ [] ∧ ∀ c ∈ w, c.isAlphanum = true ∧ toLowerCh c = c ∧ isWs c = false := by
    intro w hw
    obtain ⟨hne, hcc⟩ :=
      splitWhitespace_words ((v.filter fun c => c.isAlphanum || isWs c).map toLowerCh)
        w hw
    refine ⟨hne, ?_⟩
    intro c hcm
    obtain ⟨hcw, hcin2⟩ := hcc c hcm
    obtain ⟨c0, hc0mem, hc0⟩ := List.mem_map.mp hcin2
    have hkeep : (c0.isAlphanum || isWs c0) = true := (List.mem_filter.mp hc0mem).2
    have hkeep2 : c0.isAlphanum = true ∨ isWs c0 = true := by simpa using hkeep
    subst hc0
    refine ⟨?_, toLowerCh_idem c0, hcw⟩
    rcases hkeep2 with h | h
    · exact isAlphanum_toLowerCh c0 h
    · rw [isWs_toLowerCh, h] at hcw
      cases hcw
  refine ⟨?_, splitWhitespace ((v.filter fun c => c.isAlphanum || isWs c).map toLowerCh),
    hnv, fun w hw => ⟨(hwp w hw).1,
      fun c hc => ⟨((hwp w hw).2 c hc).1, ((hwp w hw).2 c hc).2.1⟩⟩⟩
  rw [hnv]
  have hfilter : (joinSpace (splitWhitespace
        ((v.filter fun c => c.isAlphanum || isWs c).map toLowerCh))).filter
          (fun c => c.isAlphanum || isWs c)
      = joinSpace (splitWhitespace
          ((v.filter fun c => c.isAlphanum || isWs c).map toLowerCh)) := by
    apply filter_id_on
    intro a ha
    rcases mem_joinSpace _ ha with h | hex
    · rw [h]; rfl
    · obtain ⟨w, hw, hcw⟩ := hex
      have := ((hwp w hw).2 a hcw).1
      rw [this]
      rfl
  have hmap : (joinSpace (splitWhitespace
        ((v.filter fun c => c.isAlphanum || isWs c).map toLowerCh))).map toLowerCh
      = joinSpace (splitWhitespace
          ((v.filter fun c => c.isAlphanum || isWs c).map toLowerCh)) := by
    apply map_id_on
    intro a ha
    rcases mem_joinSpace _ ha with h | hex
    · rw [h]; rfl
    · obtain ⟨w, hw, hcw⟩ := hex
      exact ((hwp w hw).2 a hcw).2.1
  show joinSpace (splitWhitespace
      (((joinSpace (splitWhitespace
          ((v.filter fun c => c.isAlphanum || isWs c).map toLowerCh))).filter
            (fun c => c.isAlphanum || isWs c)).map toLowerCh))
    = joinSpace (splitWhitespace
        ((v.filter fun c => c.isAlphanum || isWs c).map toLowerCh))
  rw [hfilter, hmap,
    splitWhitespace_join _ (fun w hw => ⟨(hwp w hw).1,
      fun c hc => ((hwp w hw).2 c hc).2.2⟩)]

theorem flatMap_eq_map_on {f : Char → Str} {g : Char → Char} :
    ∀ l : Str, (∀ c ∈ l, f c = [g c]) → l.flatMap f = l.map g := by
  intro l h
  induction l with
  | nil => rfl
  | cons c rest ih =>
    rw [List.flatMap_cons, List.map_cons, h c (List.mem_cons_self _ _),
      ih (fun x hx => h x (List.mem_cons_of_mem _ hx)), List.singleton_append]

theorem isAlphanumericU_ascii (c : Char) (h : c.toNat ≤ 127) :
    isAlphanumericU c = c.isAlphanum := by
  unfold isAlphanumericU
  have hall : ∀ x ∈ uniAlnumChars, 127 < x.toNat := by decide
  have hnm : c ∉ uniAlnumChars := by
    intro hc
    have := hall c hc
    omega
  rw [decide_eq_false hnm, Bool.or_false]

theorem toLowercaseU_ascii (c : Char) (h : c.toNat ≤ 127) :
    toLowercaseU c = [toLowerCh c] := by
  unfold toLowercaseU
  have hall : ∀ p ∈ uniLowerPairs, 127 < p.1.toNat := by decide
  have hfind : uniLowerPairs.find? (fun p => p.1 == c) = none := by
    rw [List.find?_eq_none]
    intro x hx hbeq
    have hx1 : x.1 = c := by simpa using hbeq
    have := hall x hx
    rw [hx1] at this
    omega
  rw [hfind]

theorem toLowerCh_ascii (c : Char) (h : c.toNat ≤ 127) :
    (toLowerCh c).toNat ≤ 127 := by
  rcases toLowerCh_spec c with hs | hs
  · rw [hs]; exact h
  · have hall : ∀ p ∈ lowerPairs, p.2.toNat ≤ 127 := by decide
    exact hall _ hs

theorem normalize_list_name_ascii_eq (v : Str) (h : ∀ c ∈ v, c.toNat ≤ 127) :
    normalize_list_name v = asciiNormalize v := by
  unfold normalize_list_name asciiNormalize
  have hf : v.filter (fun c => isAlphanumericU c || isWs c)
      = v.filter (fun c => c.isAlphanum || isWs c) :=
    List.filter_congr (fun c hc => by rw [isAlphanumericU_ascii c (h c hc)])
  rw [hf, flatMap_eq_map_on _
    (fun c hc => toLowercaseU_ascii c (h c (List.mem_filter.mp hc).1))]

theorem asciiNormalize_ascii (v : Str) (h : ∀ c ∈ v, c.toNat ≤ 127) :
    ∀ c ∈ asciiNormalize v, c.toNat ≤ 127 := by
  intro c hc
  rcases mem_joinSpace _ hc with hsp | hex
  · rw [hsp]; decide
  · obtain ⟨w, hw, hcw⟩ := hex
    have hword := splitWhitespace_words _ w hw
    have hcin : c ∈ (v.filter fun x => x.isAlphanum || isWs x).map toLowerCh :=
      (hword.2 c hcw).2
    obtain ⟨c0, hc0mem, hc0⟩ := List.mem_map.mp hcin
    have hc0v : c0 ∈ v := (List.mem_filter.mp hc0mem).1
    rw [← hc0]
    exact toLowerCh_ascii c0 (h c0 hc0v)

/-- C8, counterexample.  On Unicode input the function is not idempotent
and its output is not all-alphanumeric: the dotted capital I lowercases to
`i` followed by the combining dot above, which is not alphanumeric and is
stripped by a second application. -/
theorem C8_counterexample :
    normalize_list_name ['\u0130'] = ['i', '\u0307']
    ∧ normalize_list_name (normalize_list_name ['\u0130']) = ['i']
    ∧ normalize_list_name (normalize_list_name ['\u0130'])
        ≠ normalize_list_name ['\u0130']
    ∧ '\u0307' ∈ normalize_list_name ['\u0130']
    ∧ isAlphanumericU '\u0307' = false := by
  decide

/-- C8, amended.  On input consisting of ASCII characters,
`normalize_list_name` is idempotent and its output is a list of nonempty
words of lower-case alphanumeric characters joined by single spaces (hence
no leading or trailing whitespace); on general Unicode input idempotence
and the output shape can fail. -/
theorem C8_amended_normalize_list_name (v : Str) (h : ∀ c ∈ v, c.toNat ≤ 127) :
    normalize_list_name (normalize_list_name v) = normalize_list_name v
    ∧ ∃ ws, normalize_list_name v = joinSpace ws ∧
        ∀ w ∈ ws, w ≠ [] ∧ ∀ c ∈ w, c.isAlphanum = true ∧ toLowerCh c = c := by
  have h1 := normalize_list_name_ascii_eq v h
  have hout := asciiNormalize_ascii v h
  have h2 := normalize_list_name_ascii_eq (asciiNormalize v) hout
  rw [h1, h2, (asciiNormalize_spec v).1]
  exact ⟨rfl, (asciiNormalize_spec v).2⟩

theorem C8_amended_normalize_list_name_witness :
    normalize_list_name (normalize_list_name ("  My  LIST  42 ".toList))
        = normalize_list_name ("  My  LIST  42 ".toList)
    ∧ ∃ ws, normalize_list_name ("  My  LIST  42 ".toList) = joinSpace ws ∧
        ∀ w ∈ ws, w ≠ [] ∧ ∀ c ∈ w, c.isAlphanum = true ∧ toLowerCh c = c :=
  C8_amended_normalize_list_name ("  My  LIST  42 ".toList) (by decide)

/-! ## C7: unknown bang-tokens survive as terms -/

/-- C7.  A token `!suffix` whose lower-cased suffix is none of the known
priority levels is not consumed by the shorthand parser: it does not parse
as a priority, and the scan step leaves every filter field (including the
priority) unchanged, appending the whole token to the terms in its original
position. -/
theorem C7_unknown_bang_token (s : Str) (rest : List Str) (pw : Bool)
    (acc : ShorthandFilters)
    (h1 : s.map toLowerCh ≠ "high".toList)
    (h2 : s.map toLowerCh ≠ "medium".toList)
    (h3 : s.map toLowerCh ≠ "low".toList)
    (h4 : s.map toLowerCh ≠ "none".toList)
    (h5 : s.map toLowerCh ≠ "normal".toList) :
    parse_priority_shorthand ('!' :: s) = none ∧
    shorthandGo pw (('!' :: s) :: rest) acc
      = shorthandGo pw rest { acc with terms := acc.terms ++ ['!' :: s] } := by
  have hbang : toLowerCh '!' = '!' := rfl
  have h1a : List.map toLowerCh s ≠ ['h', 'i', 'g', 'h'] := by simpa using h1
  have h2a : List.map toLowerCh s ≠ ['m', 'e', 'd', 'i', 'u', 'm'] := by simpa using h2
  have h3a : List.map toLowerCh s ≠ ['l', 'o', 'w'] := by simpa using h3
  have h4a : List.map toLowerCh s ≠ ['n', 'o', 'n', 'e'] := by simpa using h4
  have h5a : List.map toLowerCh s ≠ ['n', 'o', 'r', 'm', 'a', 'l'] := by simpa using h5
  have hprio : parse_priority_shorthand ('!' :: s) = none := by
    unfold parse_priority_shorthand stripLeadChar
    simp [h1a, h2a, h3a, h4a, h5a]
  have hwhen : parse_when_token ('!' :: s) = none := by
    unfold parse_when_token
    simp [hbang]
  have hlt : toLowerCh 't' = 't' := rfl
  have hlh : toLowerCh 'h' = 'h' := rfl
  have hli : toLowerCh 'i' = 'i' := rfl
  have hls : toLowerCh 's' = 's' := rfl
  have hthis : eqIgnoreCase ('!' :: s) ['t', 'h', 'i', 's'] = false := by
    unfold eqIgnoreCase
    simp [hbang, hlt, hlh, hli, hls]
  refine ⟨hprio, ?_⟩
  cases pw <;> cases rest <;>
    simp [shorthandGo, hprio, hwhen, hthis, stripLeadChar]

theorem C7_unknown_bang_token_witness :
    parse_priority_shorthand ('!' :: "urgent".toList) = none ∧
    shorthandGo true (('!' :: "urgent".toList) :: []) ShorthandFilters.init
      = shorthandGo true []
          { ShorthandFilters.init with
              terms := ShorthandFilters.init.terms ++ ['!' :: "urgent".toList] } :=
  C7_unknown_bang_token ("urgent".toList) [] true ShorthandFilters.init
    (by decide) (by decide) (by decide) (by decide) (by decide)

theorem C3_this_week_window_witness :
    weekdayNumFromMonday (date_window_for .thisWeek ⟨2026, 10, 15⟩).1 = 0
    ∧ (date_window_for .thisWeek ⟨2026, 10, 15⟩).2
        = addDays (date_window_for .thisWeek ⟨2026, 10, 15⟩).1 6
    ∧ NaiveDate.le (date_window_for .thisWeek ⟨2026, 10, 15⟩).1 ⟨2026, 10, 15⟩
    ∧ NaiveDate.le ⟨2026, 10, 15⟩ (date_window_for .thisWeek ⟨2026, 10, 15⟩).2 :=
  C3_this_week_window ⟨2026, 10, 15⟩ (by decide)

end TickTick
